import Mathlib

/-!
Verification development for the snake-cube puzzle solver (`puzzle.py`).

The Python source is shallowly embedded as follows:

* a position `(x, y, z)` is `Pos := Int × Int × Int`;
* a direction is either a raw `Char` (as passed to the Python `move`,
  which raises `ValueError` on unknown symbols — modelled by `Option`)
  or a member of the six-constructor inductive `Direction` used for
  trajectories, whose characters are always valid;
* Python functions that can raise are embedded with result type
  `Option _`, where `none` is the raised exception;
* Python `set`s are `Finset Pos`; trajectories are `List Direction`.
-/

/-- A 3-d integer coordinate, as the Python tuples `(x, y, z)`. -/

abbrev Pos : Type := Int × Int × Int

/-- The six direction symbols used by the puzzle trajectories. -/

inductive Direction : Type where
  | N | S | E | W | U | D
deriving DecidableEq, Fintype

/-- The character the Python code uses for each direction. -/

def Direction.char : Direction → Char
  | .N => 'N'
  | .S => 'S'
  | .E => 'E'
  | .W => 'W'
  | .U => 'U'
  | .D => 'D'

/-- Modelled from the spec: N/S, E/W and U/D are each other's inverse
(the source defines no `inverse` function; the pairing is the one stated
in the spec's data model). -/

def Direction.inverse : Direction → Direction
  | .N => .S
  | .S => .N
  | .E => .W
  | .W => .E
  | .U => .D
  | .D => .U

/-- The axis a direction moves along: 0 for E/W (x), 1 for N/S (y),
2 for U/D (z). -/

def Direction.axis : Direction → Nat
  | .E | .W => 0
  | .N | .S => 1
  | .U | .D => 2

/-- Embedding of `move(position, direction)` from `puzzle.py`, taking the
raw direction character. The Python `raise ValueError(...)` branch for an
unrecognized direction is modelled by `none`. -/

def move (position : Pos) (direction : Char) : Option Pos :=
  let (x, y, z) := position
  if direction = 'E' then some (x + 1, y, z)
  else if direction = 'W' then some (x - 1, y, z)
  else if direction = 'N' then some (x, y + 1, z)
  else if direction = 'S' then some (x, y - 1, z)
  else if direction = 'U' then some (x, y, z + 1)
  else if direction = 'D' then some (x, y, z - 1)
  else none

/-- The action of `move` on the six valid direction symbols, with the
error branch eliminated (see `move_char`). All internal callers of the
Python `move` pass one of the six valid characters, so this total
function is what the rest of the code uses. -/

def moveD (position : Pos) (direction : Direction) : Pos :=
  let (x, y, z) := position
  match direction with
  | .E => (x + 1, y, z)
  | .W => (x - 1, y, z)
  | .N => (x, y + 1, z)
  | .S => (x, y - 1, z)
  | .U => (x, y, z + 1)
  | .D => (x, y, z - 1)

def positions_visited_from (p : Pos) : List Direction → List Pos
  | [] => [p]
  | d :: ds => p :: positions_visited_from (moveD p d) ds

/-- Embedding of `positions_visited(trajectory)`: replays the trajectory
from the origin `(0,0,0)`. -/

def positions_visited (trajectory : List Direction) : List Pos :=
  positions_visited_from (0, 0, 0) trajectory

def pymin : List Int → Option Int
  | [] => none
  | x :: xs => some (xs.foldl min x)

/-- Python's built-in `max` over a list of ints: `none` models the
`ValueError` raised on an empty sequence. -/

def pymax : List Int → Option Int
  | [] => none
  | x :: xs => some (xs.foldl max x)

def shift_into_positive_space (positions : List Pos) : Option (List Pos) := do
  let min_x ← pymin (positions.map fun p => p.1)
  let min_y ← pymin (positions.map fun p => p.2.1)
  let min_z ← pymin (positions.map fun p => p.2.2)
  pure (positions.map fun p => (p.1 - min_x, p.2.1 - min_y, p.2.2 - min_z))

/-- The six axis-aligned neighbours of a cell, in the order the Python
`is_connected` enumerates them: `['N', 'S', 'E', 'W', 'U', 'D']`. -/

def neighbors (p : Pos) : List Pos :=
  [Direction.N, Direction.S, Direction.E, Direction.W, Direction.U, Direction.D].map
    (moveD p)

def bfsLoop (os : List Pos) (rem : Finset Pos) (closed : Finset Pos) : Bool :=
  match os with
  | [] => decide (rem = ∅)
  | p :: rest =>
      bfsLoop (rest ++ (neighbors p).filter (fun q => decide (q ∈ rem)))
        (rem \ ((neighbors p).filter (fun q => decide (q ∈ rem))).toFinset)
        (insert p closed)
termination_by os.length + rem.card
decreasing_by
  have hnodup : ((neighbors p).filter (fun q => decide (q ∈ rem))).Nodup := by
    apply List.Nodup.filter
    obtain ⟨x, y, z⟩ := p
    simp [neighbors, moveD, Prod.ext_iff]
    omega
  have hsub : ((neighbors p).filter (fun q => decide (q ∈ rem))).toFinset ⊆ rem := by
    intro q hq
    have hq' := List.mem_toFinset.mp hq
    have := List.of_mem_filter hq'
    simpa using this
  have hcard := List.toFinset_card_of_nodup hnodup
  have hsdiff := Finset.card_sdiff hsub
  have hle := Finset.card_le_card hsub
  simp only [List.length_append, List.length_cons]
  omega

/-- Fuel-indexed mirror of `bfsLoop`, structurally recursive so that the
kernel can evaluate it on concrete inputs; `bfsLoopFuel_eq` shows it
agrees with `bfsLoop` whenever the fuel is at least the loop measure. -/

def bfsLoopFuel : Nat → List Pos → Finset Pos → Finset Pos → Bool
  | _, [], rem, _ => decide (rem = ∅)
  | 0, _ :: _, _, _ => false
  | fuel + 1, p :: rest, rem, closed =>
      bfsLoopFuel fuel (rest ++ (neighbors p).filter (fun q => decide (q ∈ rem)))
        (rem \ ((neighbors p).filter (fun q => decide (q ∈ rem))).toFinset)
        (insert p closed)

def is_connected (positions : List Pos) : Bool :=
  match positions with
  | [] => true
  | p :: rest => bfsLoop [p] rest.toFinset ∅

/-- Computable form of `is_connected` used to evaluate it on concrete
inputs (see `is_connected_eq_fuel`). -/

def is_connected_fuel (positions : List Pos) : Bool :=
  match positions with
  | [] => true
  | p :: rest => bfsLoopFuel (1 + rest.toFinset.card) [p] rest.toFinset ∅

def Step (S : Finset Pos) (u v : Pos) : Prop := v ∈ S ∧ v ∈ neighbors u

/-- Reachability inside the cell set `S` by axis-aligned steps. -/

def Reach (S : Finset Pos) : Pos → Pos → Prop := Relation.ReflTransGen (Step S)

/-- The cell set `S` forms a single connected component under
axis-aligned adjacency: every member reaches every member inside `S`. -/

def ConnectedIn (S : Finset Pos) : Prop := ∀ p ∈ S, ∀ q ∈ S, Reach S p q

structure SnakePuzzleSearchSpace : Type where
  multipliers : List Nat
  cube_width : Nat

namespace SnakePuzzleSearchSpace

/-- Embedding of `self.pivot_points`: the set of prefix sums
`sum(multipliers[:i])` for `i in range(len(multipliers))` (note: this
includes `0` and excludes the full sum). -/

def pivot_points (sp : SnakePuzzleSearchSpace) : Finset Nat :=
  ((List.range sp.multipliers.length).map fun i => (sp.multipliers.take i).sum).toFinset

/-- Embedding of `at_pivot(state)`. -/

def at_pivot (sp : SnakePuzzleSearchSpace) (state : List Direction) : Bool :=
  decide (state.length ∈ sp.pivot_points)

/-- The list comprehension underlying `self.goal_positions`: all cells of
the `cube_width`-wide cube, enumerated in the order of the Python nested
comprehension. -/

def goal_list (sp : SnakePuzzleSearchSpace) : List Pos :=
  (List.range sp.cube_width).flatMap fun x =>
    (List.range sp.cube_width).flatMap fun y =>
      (List.range sp.cube_width).map fun z =>
        (((x : Int), (y : Int), (z : Int)) : Pos)

/-- Embedding of `self.goal_positions`: all cells of the
`cube_width`-wide cube, as a set. -/

def goal_positions (sp : SnakePuzzleSearchSpace) : Finset Pos :=
  sp.goal_list.toFinset

/-- Embedding of `get_start_state()`: the fixed single-move trajectory
`('E',)`. -/

def get_start_state (_sp : SnakePuzzleSearchSpace) : List Direction := [Direction.E]

/-- Embedding of `is_goal_state(state)`: the shifted visited positions,
taken as a set, must equal the goal set. `none` models an exception
propagating out of `shift_into_positive_space` (never reached, since
`positions_visited` never returns an empty list). -/

def is_goal_state (sp : SnakePuzzleSearchSpace) (state : List Direction) : Option Bool := do
  let positions ← shift_into_positive_space (positions_visited state)
  pure (decide (positions.toFinset = sp.goal_positions))

/-- Embedding of `is_valid_state(state)`: the three pruning conditions —
axiswise maxima below the cube width, no duplicate visited position, and
connectivity of the unvisited goal cells. The Python
`list(self.goal_positions - set(positions))` enumerates each member of
the set difference exactly once; here it is the deduplicated goal list
filtered to the cells not visited. -/

def is_valid_state (sp : SnakePuzzleSearchSpace) (state : List Direction) : Option Bool := do
  let positions ← shift_into_positive_space (positions_visited state)
  let max_x ← pymax (positions.map fun p => p.1)
  let max_y ← pymax (positions.map fun p => p.2.1)
  let max_z ← pymax (positions.map fun p => p.2.2)
  let unvisited := sp.goal_list.dedup.filter fun q => decide (q ∉ positions.toFinset)
  pure (decide (max (max max_x max_y) max_z < (sp.cube_width : Int)) &&
    decide (positions.toFinset.card = positions.length) &&
    is_connected unvisited)

/-- The candidate continuation directions computed by `get_successors`:
straight ahead when not at a pivot, otherwise the four directions drawn
from the two axes other than the axis of the last move, in the fixed
enumeration order of the source. -/

def nextDirections (last : Direction) (pivot : Bool) : List Direction :=
  if !pivot then [last]
  else match last with
    | .E | .W => [Direction.N, Direction.S, Direction.U, Direction.D]
    | .N | .S => [Direction.E, Direction.W, Direction.U, Direction.D]
    | .U | .D => [Direction.E, Direction.W, Direction.N, Direction.S]

/-- The final list comprehension of `get_successors`: keep the
candidates on which `is_valid_state` returns true, propagating a raised
exception (`none`) if the predicate raises. -/

def filterValid (sp : SnakePuzzleSearchSpace) :
    List (List Direction) → Option (List (List Direction))
  | [] => some []
  | c :: cs => do
    let b ← sp.is_valid_state c
    let rest ← filterValid sp cs
    pure (if b then c :: rest else rest)

/-- Embedding of `get_successors(state)`. The Python `state[-1]` raises
`IndexError` on an empty state (modelled by `none` via `getLast?`);
both branches of the pivot test read `state[-1]`. -/

def get_successors (sp : SnakePuzzleSearchSpace) (state : List Direction) :
    Option (List (List Direction)) :=
  if sp.multipliers.sum ≤ state.length then some []
  else
    match state.getLast? with
    | none => none
    | some last =>
        filterValid sp ((nextDirections last (sp.at_pivot state)).map fun d => state ++ [d])

end SnakePuzzleSearchSpace

theorem move_char (p : Pos) (d : Direction) : move p d.char = some (moveD p d) := by
  obtain ⟨x, y, z⟩ := p
  cases d <;> rfl

/-- Helper for `positions_visited`: the list of positions visited when
replaying a trajectory starting from `p` (the Python loop accumulates
`positions` with `positions[-1]` as the current position; this recursion
produces the same list). -/

theorem positions_visited_from_cons (p : Pos) (t : List Direction) :
    ∃ l, positions_visited_from p t = p :: l := by
  cases t <;> exact ⟨_, rfl⟩

theorem positions_visited_ne_nil (t : List Direction) : positions_visited t ≠ [] := by
  obtain ⟨l, hl⟩ := positions_visited_from_cons ((0, 0, 0) : Pos) t
  show positions_visited_from ((0, 0, 0) : Pos) t ≠ []
  rw [hl]
  exact List.cons_ne_nil _ _

theorem length_positions_visited_from (p : Pos) (t : List Direction) :
    (positions_visited_from p t).length = t.length + 1 := by
  induction t generalizing p with
  | nil => rfl
  | cons d ds ih => simp [positions_visited_from, ih]

/-- Python's built-in `min` over a list of ints: `none` models the
`ValueError` raised on an empty sequence. -/

theorem foldl_min_le_init (xs : List Int) (x : Int) : xs.foldl min x ≤ x := by
  induction xs generalizing x with
  | nil => exact le_refl x
  | cons a as ih => exact le_trans (ih (min x a)) (min_le_left x a)

theorem foldl_min_le_mem (xs : List Int) (x y : Int) (hy : y ∈ xs) :
    xs.foldl min x ≤ y := by
  induction xs generalizing x with
  | nil => cases hy
  | cons a as ih =>
    rcases List.mem_cons.mp hy with h | h
    · subst h
      exact le_trans (foldl_min_le_init as (min x y)) (min_le_right x y)
    · exact ih (min x a) h

theorem foldl_min_mem (xs : List Int) (x : Int) :
    xs.foldl min x = x ∨ xs.foldl min x ∈ xs := by
  induction xs generalizing x with
  | nil => exact Or.inl rfl
  | cons a as ih =>
    rcases ih (min x a) with h | h
    · rcases le_total x a with hxa | hax
      · left
        rw [List.foldl_cons, h, min_eq_left hxa]
      · right
        rw [List.foldl_cons, h, min_eq_right hax]
        exact List.mem_cons_self a as
    · exact Or.inr (List.mem_cons_of_mem a h)

theorem foldl_max_init_le (xs : List Int) (x : Int) : x ≤ xs.foldl max x := by
  induction xs generalizing x with
  | nil => exact le_refl x
  | cons a as ih => exact le_trans (le_max_left x a) (ih (max x a))

theorem foldl_max_mem_le (xs : List Int) (x y : Int) (hy : y ∈ xs) :
    y ≤ xs.foldl max x := by
  induction xs generalizing x with
  | nil => cases hy
  | cons a as ih =>
    rcases List.mem_cons.mp hy with h | h
    · subst h
      exact le_trans (le_max_right x y) (foldl_max_init_le as (max x y))
    · exact ih (max x a) h

theorem foldl_max_mem (xs : List Int) (x : Int) :
    xs.foldl max x = x ∨ xs.foldl max x ∈ xs := by
  induction xs generalizing x with
  | nil => exact Or.inl rfl
  | cons a as ih =>
    rcases ih (max x a) with h | h
    · rcases le_total x a with hxa | hax
      · right
        rw [List.foldl_cons, h, max_eq_right hxa]
        exact List.mem_cons_self a as
      · left
        rw [List.foldl_cons, h, max_eq_left hax]
    · exact Or.inr (List.mem_cons_of_mem a h)

theorem pymin_le (l : List Int) (m : Int) (h : pymin l = some m) :
    ∀ y ∈ l, m ≤ y := by
  match l with
  | [] => cases h
  | x :: xs =>
    intro y hy
    have hm : m = xs.foldl min x := by
      simpa [pymin] using h.symm
    subst hm
    rcases List.mem_cons.mp hy with h | h
    · subst h
      exact foldl_min_le_init xs y
    · exact foldl_min_le_mem xs x y h

theorem pymin_mem (l : List Int) (m : Int) (h : pymin l = some m) : m ∈ l := by
  match l with
  | [] => cases h
  | x :: xs =>
    have hm : m = xs.foldl min x := by
      simpa [pymin] using h.symm
    subst hm
    rcases foldl_min_mem xs x with h | h
    · rw [h]; exact List.mem_cons_self x xs
    · exact List.mem_cons_of_mem x h

theorem pymax_ge (l : List Int) (m : Int) (h : pymax l = some m) :
    ∀ y ∈ l, y ≤ m := by
  match l with
  | [] => cases h
  | x :: xs =>
    intro y hy
    have hm : m = xs.foldl max x := by
      simpa [pymax] using h.symm
    subst hm
    rcases List.mem_cons.mp hy with h | h
    · subst h
      exact foldl_max_init_le xs y
    · exact foldl_max_mem_le xs x y h

theorem pymax_mem (l : List Int) (m : Int) (h : pymax l = some m) : m ∈ l := by
  match l with
  | [] => cases h
  | x :: xs =>
    have hm : m = xs.foldl max x := by
      simpa [pymax] using h.symm
    subst hm
    rcases foldl_max_mem xs x with h | h
    · rw [h]; exact List.mem_cons_self x xs
    · exact List.mem_cons_of_mem x h

/-- Embedding of `shift_into_positive_space(positions)`: translate every
position by the negation of the axiswise minima. On the empty list the
Python `min([...])` calls raise `ValueError`, modelled by `none`. -/

theorem mem_neighbors (q p : Pos) :
    q ∈ neighbors p ↔
      q = (p.1, p.2.1 + 1, p.2.2) ∨ q = (p.1, p.2.1 - 1, p.2.2) ∨
      q = (p.1 + 1, p.2.1, p.2.2) ∨ q = (p.1 - 1, p.2.1, p.2.2) ∨
      q = (p.1, p.2.1, p.2.2 + 1) ∨ q = (p.1, p.2.1, p.2.2 - 1) := by
  obtain ⟨x, y, z⟩ := p
  simp [neighbors, moveD]

theorem neighbors_nodup (p : Pos) : (neighbors p).Nodup := by
  obtain ⟨x, y, z⟩ := p
  simp [neighbors, moveD, Prod.ext_iff]
  omega

theorem neighbors_symm (p q : Pos) : p ∈ neighbors q ↔ q ∈ neighbors p := by
  rw [mem_neighbors, mem_neighbors]
  obtain ⟨x, y, z⟩ := p
  obtain ⟨a, b, c⟩ := q
  simp only [Prod.mk.injEq]
  constructor
  · rintro (⟨h1, h2, h3⟩ | ⟨h1, h2, h3⟩ | ⟨h1, h2, h3⟩ | ⟨h1, h2, h3⟩ | ⟨h1, h2, h3⟩ |
      ⟨h1, h2, h3⟩) <;> omega
  · rintro (⟨h1, h2, h3⟩ | ⟨h1, h2, h3⟩ | ⟨h1, h2, h3⟩ | ⟨h1, h2, h3⟩ | ⟨h1, h2, h3⟩ |
      ⟨h1, h2, h3⟩) <;> omega

theorem not_mem_neighbors_self (p : Pos) : p ∉ neighbors p := by
  obtain ⟨x, y, z⟩ := p
  simp [neighbors, moveD, Prod.ext_iff]
  omega

/-- One step of the `while` loop of `is_connected` removes the head of
the open list and moves each newly discovered adjacent cell from the
remaining set into the open list, so the combined measure
`open.length + remaining.card` strictly decreases. -/

theorem bfs_step_measure_lt (p : Pos) (rest : List Pos) (rem : Finset Pos) :
    (rest ++ (neighbors p).filter (fun q => decide (q ∈ rem))).length +
      (rem \ ((neighbors p).filter (fun q => decide (q ∈ rem))).toFinset).card <
      (p :: rest).length + rem.card := by
  set found := (neighbors p).filter (fun q => decide (q ∈ rem)) with hfound
  have hnodup : found.Nodup := (neighbors_nodup p).filter _
  have hsub : found.toFinset ⊆ rem := by
    intro q hq
    have hq' : q ∈ found := List.mem_toFinset.mp hq
    have := List.of_mem_filter hq'
    simpa using this
  have hcard : found.toFinset.card = found.length := List.toFinset_card_of_nodup hnodup
  have hsdiff : (rem \ found.toFinset).card = rem.card - found.toFinset.card :=
    Finset.card_sdiff hsub
  have hle : found.toFinset.card ≤ rem.card := Finset.card_le_card hsub
  rw [List.length_append, hsdiff, hcard] at *
  simp only [List.length_cons]
  omega

/-- The `while` loop of `is_connected`, embedded by well-founded
recursion on `open.length + remaining.card` (`bfs_step_measure_lt`).
`os` is `open_list`, `rem` is the mutated `positions` set, `closed` is
`closed_list` (tracked by the Python code but unused by the result). -/

theorem bfsLoopFuel_eq (fuel : Nat) :
    ∀ os rem closed, os.length + rem.card ≤ fuel →
      bfsLoopFuel fuel os rem closed = bfsLoop os rem closed := by
  induction fuel with
  | zero =>
    intro os rem closed h
    match os with
    | [] => rw [bfsLoop]; rfl
    | p :: rest => simp at h
  | succ n ih =>
    intro os rem closed h
    match os with
    | [] => rw [bfsLoop]; rfl
    | p :: rest =>
      rw [bfsLoop, bfsLoopFuel]
      exact ih _ _ _ (by
        have := bfs_step_measure_lt p rest rem
        simp only [List.length_cons] at this h
        omega)

/-- Embedding of `is_connected(positions)`: breadth-first traversal from
`positions[0]`, with `set(positions[1:])` as the remaining set. -/

theorem is_connected_eq_fuel (positions : List Pos) :
    is_connected positions = is_connected_fuel positions := by
  match positions with
  | [] => rfl
  | p :: rest =>
    show bfsLoop [p] rest.toFinset ∅ = bfsLoopFuel (1 + rest.toFinset.card) [p] rest.toFinset ∅
    exact (bfsLoopFuel_eq _ _ _ _ (by simp)).symm

/-- One step of axis-aligned adjacency inside the cell set `S`: the
target is a member of `S` adjacent to the source. -/

theorem reach_mem_right (S : Finset Pos) {a b : Pos} (h : Reach S a b) (ha : a ∈ S) :
    b ∈ S := by
  induction h with
  | refl => exact ha
  | tail _ step _ => exact step.1

theorem reach_symm (S : Finset Pos) {a b : Pos} (ha : a ∈ S) (h : Reach S a b) :
    Reach S b a := by
  induction h with
  | refl => exact Relation.ReflTransGen.refl
  | tail hab step ih =>
    exact Relation.ReflTransGen.head
      ⟨reach_mem_right S hab ha, (neighbors_symm _ _).mpr step.2⟩ ih

/-- A path inside `S` from outside `rem` into `rem` must cross an edge
whose source is outside `rem` and whose target is inside `rem`. -/

theorem reach_enters (S rem : Finset Pos) :
    ∀ {u q : Pos}, Reach S u q → u ∈ S → u ∉ rem → q ∈ rem →
      ∃ a b, a ∈ S ∧ a ∉ rem ∧ b ∈ rem ∧ b ∈ neighbors a := by
  intro u q h
  induction h with
  | refl =>
    intro _ hunr hq
    exact absurd hq hunr
  | @tail b c hab step ih =>
    intro hu hunr hq
    by_cases hb : b ∈ rem
    · exact ih hu hunr hb
    · exact ⟨b, c, reach_mem_right S hab hu, hb, hq, step.2⟩

/-- Soundness of the traversal: if the loop accepts, every remaining
cell was reachable (inside `S₀`) from some cell of the open list. -/

theorem bfs_sound (S₀ : Finset Pos) (os : List Pos) (rem closed : Finset Pos) :
    (∀ a ∈ os, a ∈ S₀) → rem ⊆ S₀ → bfsLoop os rem closed = true →
      ∀ q ∈ rem, ∃ a ∈ os, Reach S₀ a q := by
  induction os, rem, closed using bfsLoop.induct with
  | case1 rem closed =>
    intro _ _ htrue q hq
    rw [bfsLoop] at htrue
    simp only [decide_eq_true_eq] at htrue
    subst htrue
    cases hq
  | case2 rem closed p rest ih =>
    intro hos hrem htrue q hq
    rw [bfsLoop] at htrue
    have hfoundS : ∀ a ∈ (neighbors p).filter (fun q => decide (q ∈ rem)), a ∈ S₀ := by
      intro a ha
      have : a ∈ rem := by simpa using (List.mem_filter.mp ha).2
      exact hrem this
    have IH := ih ?_ ?_ htrue
    · by_cases hqf : q ∈ (neighbors p).filter (fun q => decide (q ∈ rem))
      · refine ⟨p, List.mem_cons_self p rest, Relation.ReflTransGen.single ?_⟩
        exact ⟨hrem hq, List.mem_of_mem_filter hqf⟩
      · have hq' : q ∈ rem \ ((neighbors p).filter (fun q => decide (q ∈ rem))).toFinset :=
          Finset.mem_sdiff.mpr ⟨hq, fun h => hqf (List.mem_toFinset.mp h)⟩
        obtain ⟨a, ha, hreach⟩ := IH q hq'
        rcases List.mem_append.mp ha with h | h
        · exact ⟨a, List.mem_cons_of_mem p h, hreach⟩
        · refine ⟨p, List.mem_cons_self p rest, Relation.ReflTransGen.trans
            (Relation.ReflTransGen.single ?_) hreach⟩
          have haR : a ∈ rem := by simpa using (List.mem_filter.mp h).2
          exact ⟨hrem haR, List.mem_of_mem_filter h⟩
    · intro a ha
      rcases List.mem_append.mp ha with h | h
      · exact hos a (List.mem_cons_of_mem p h)
      · exact hfoundS a h
    · exact fun a ha => hrem (Finset.mem_sdiff.mp ha).1

/-- Completeness of the traversal: if every remaining cell is reachable
(inside `S₀`) from some already-dequeued cell, and no dequeued cell has
an unexplored neighbour outside the open list, the loop accepts. -/

theorem bfs_complete (S₀ : Finset Pos) (os : List Pos) (rem closed : Finset Pos) :
    rem ⊆ S₀ → (∀ a ∈ os, a ∈ S₀) → (∀ a ∈ os, a ∉ rem) →
    (∀ u ∈ S₀, u ∉ rem → u ∉ os → ∀ v ∈ rem, v ∉ neighbors u) →
    (∀ q ∈ rem, ∃ u, u ∈ S₀ ∧ u ∉ rem ∧ Reach S₀ u q) →
    bfsLoop os rem closed = true := by
  induction os, rem, closed using bfsLoop.induct with
  | case1 rem closed =>
    intro _ _ _ hclosed hreach
    rw [bfsLoop]
    simp only [decide_eq_true_eq]
    by_contra hne
    obtain ⟨q, hq⟩ := Finset.nonempty_iff_ne_empty.mpr hne
    obtain ⟨u, huS, hur, hreachu⟩ := hreach q hq
    obtain ⟨a, b, haS, har, hbr, hbn⟩ := reach_enters S₀ rem hreachu huS hur hq
    exact hclosed a haS har (List.not_mem_nil a) b hbr hbn
  | case2 rem closed p rest ih =>
    intro hrem hos hdisj hclosed hreach
    rw [bfsLoop]
    apply ih
    · exact fun a ha => hrem (Finset.mem_sdiff.mp ha).1
    · intro a ha
      rcases List.mem_append.mp ha with h | h
      · exact hos a (List.mem_cons_of_mem p h)
      · exact hrem (by simpa using (List.mem_filter.mp h).2)
    · intro a ha
      rcases List.mem_append.mp ha with h | h
      · exact fun hc => hdisj a (List.mem_cons_of_mem p h) (Finset.mem_sdiff.mp hc).1
      · exact fun hc => (Finset.mem_sdiff.mp hc).2 (List.mem_toFinset.mpr h)
    · intro u huS hur' hunos' v hv hvn
      have hvrem : v ∈ rem := (Finset.mem_sdiff.mp hv).1
      have hvnf : v ∉ ((neighbors p).filter (fun q => decide (q ∈ rem))).toFinset :=
        (Finset.mem_sdiff.mp hv).2
      have hunf : u ∉ (neighbors p).filter (fun q => decide (q ∈ rem)) := by
        intro hh
        exact hunos' (List.mem_append.mpr (Or.inr hh))
      have hunrest : u ∉ rest := by
        intro hh
        exact hunos' (List.mem_append.mpr (Or.inl hh))
      have hurem : u ∉ rem := by
        intro hurem
        exact hur' (Finset.mem_sdiff.mpr ⟨hurem, fun hh => hunf (List.mem_toFinset.mp hh)⟩)
      by_cases hup : u = p
      · subst hup
        exact hvnf (List.mem_toFinset.mpr (List.mem_filter.mpr ⟨hvn, by simpa using hvrem⟩))
      · have hunoldos : u ∉ p :: rest := by
          intro hh
          rcases List.mem_cons.mp hh with h | h
          · exact hup h
          · exact hunrest h
        exact hclosed u huS hurem hunoldos v hvrem hvn
    · intro q hq
      obtain ⟨u, huS, hur, hr⟩ := hreach q (Finset.mem_sdiff.mp hq).1
      exact ⟨u, huS, fun hh => hur (Finset.mem_sdiff.mp hh).1, hr⟩

/-- BFS correctness: on a duplicate-free list, `is_connected` decides
whether the cells form a single connected component. -/

theorem is_connected_iff_connectedIn (l : List Pos) (h : l.Nodup) :
    is_connected l = true ↔ ConnectedIn l.toFinset := by
  cases l with
  | nil =>
    constructor
    · intro _ q hq
      simp at hq
    · intro _
      rfl
  | cons p rest =>
    have hp : p ∉ rest := (List.nodup_cons.mp h).1
    have hS : (p :: rest).toFinset = insert p rest.toFinset := List.toFinset_cons
    constructor
    · intro htrue
      have hsound := bfs_sound (p :: rest).toFinset [p] rest.toFinset ∅
        (by
          intro a ha
          rcases List.mem_cons.mp ha with h' | h'
          · rw [h']
            exact List.mem_toFinset.mpr (List.mem_cons_self p rest)
          · cases h')
        (by
          rw [hS]
          exact Finset.subset_insert p rest.toFinset)
        htrue
      have reachp : ∀ q ∈ (p :: rest).toFinset, Reach (p :: rest).toFinset p q := by
        intro q hq
        rw [hS] at hq
        rcases Finset.mem_insert.mp hq with h' | h'
        · subst h'
          exact Relation.ReflTransGen.refl
        · obtain ⟨a, ha, hr⟩ := hsound q h'
          rcases List.mem_cons.mp ha with h'' | h''
          · subst h''
            exact hr
          · cases h''
      intro a ha b hb
      have hpS : p ∈ (p :: rest).toFinset := List.mem_toFinset.mpr (List.mem_cons_self p rest)
      exact Relation.ReflTransGen.trans
        (reach_symm (p :: rest).toFinset hpS (reachp a ha)) (reachp b hb)
    · intro hconn
      show bfsLoop [p] rest.toFinset ∅ = true
      have hpS : p ∈ (p :: rest).toFinset := List.mem_toFinset.mpr (List.mem_cons_self p rest)
      apply bfs_complete (p :: rest).toFinset
      · rw [hS]
        exact Finset.subset_insert p rest.toFinset
      · intro a ha
        rcases List.mem_cons.mp ha with h' | h'
        · subst h'
          exact hpS
        · cases h'
      · intro a ha
        rcases List.mem_cons.mp ha with h' | h'
        · subst h'
          exact fun hh => hp (List.mem_toFinset.mp hh)
        · cases h'
      · intro u huS hur hunos
        exfalso
        rw [hS] at huS
        rcases Finset.mem_insert.mp huS with h' | h'
        · exact hunos (by rw [h']; exact List.mem_cons_self p [])
        · exact hur h'
      · intro q hq
        refine ⟨p, hpS, fun hh => hp (List.mem_toFinset.mp hh), ?_⟩
        exact hconn p hpS q (by rw [hS]; exact Finset.mem_insert_of_mem hq)

/-- Embedding of the `SnakePuzzleSearchSpace` class: its `__init__`
stores the multiplier sequence and the cube width and performs no
validation whatsoever (in particular it never checks the multiplier sum
against `cube_width ** 3`). The derived fields `pivot_points`,
`start_state` and `goal_positions` are pure functions of these two
inputs and are embedded as definitions below. -/

theorem shift_shape (l : List Pos) (h : l ≠ []) :
    ∃ mx my mz,
      pymin (l.map fun p => p.1) = some mx ∧
      pymin (l.map fun p => p.2.1) = some my ∧
      pymin (l.map fun p => p.2.2) = some mz ∧
      shift_into_positive_space l =
        some (l.map fun p => (p.1 - mx, p.2.1 - my, p.2.2 - mz)) := by
  match l with
  | [] => exact absurd rfl h
  | x :: xs => exact ⟨_, _, _, rfl, rfl, rfl, rfl⟩

theorem foldl_min_sub (xs : List Int) (x c : Int) :
    (xs.map fun a => a - c).foldl min (x - c) = xs.foldl min x - c := by
  induction xs generalizing x with
  | nil => rfl
  | cons a as ih =>
    simp only [List.map_cons, List.foldl_cons]
    rw [min_sub_sub_right, ih]

theorem pymin_map_sub (xs : List Int) (c : Int) :
    pymin (xs.map fun a => a - c) = (pymin xs).map fun m => m - c := by
  match xs with
  | [] => rfl
  | x :: xs =>
    simp only [pymin, List.map_cons]
    rw [foldl_min_sub]
    rfl

theorem nodup_iff_toFinset_card {α : Type} [DecidableEq α] (l : List α) :
    l.toFinset.card = l.length ↔ l.Nodup := by
  constructor
  · intro h
    rw [List.card_toFinset] at h
    have heq : l.dedup = l := List.Sublist.eq_of_length (List.dedup_sublist l) h
    rw [← heq]
    exact List.nodup_dedup l
  · intro h
    exact List.toFinset_card_of_nodup h

theorem max3_lt_iff (shifted : List Pos) (w : Int) (Mx My Mz : Int)
    (hMx : pymax (shifted.map fun p => p.1) = some Mx)
    (hMy : pymax (shifted.map fun p => p.2.1) = some My)
    (hMz : pymax (shifted.map fun p => p.2.2) = some Mz)
    (h0x : pymin (shifted.map fun p => p.1) = some 0)
    (h0y : pymin (shifted.map fun p => p.2.1) = some 0)
    (h0z : pymin (shifted.map fun p => p.2.2) = some 0) :
    max (max Mx My) Mz < w ↔
      ∀ p ∈ shifted, 0 ≤ p.1 ∧ p.1 < w ∧ 0 ≤ p.2.1 ∧ p.2.1 < w ∧
        0 ≤ p.2.2 ∧ p.2.2 < w := by
  constructor
  · intro hlt p hp
    have hx : p.1 ≤ Mx := pymax_ge _ _ hMx _ (List.mem_map_of_mem _ hp)
    have hy : p.2.1 ≤ My := pymax_ge _ _ hMy _ (List.mem_map_of_mem _ hp)
    have hz : p.2.2 ≤ Mz := pymax_ge _ _ hMz _ (List.mem_map_of_mem _ hp)
    have h0x' : (0 : Int) ≤ p.1 := pymin_le _ _ h0x _ (List.mem_map_of_mem _ hp)
    have h0y' : (0 : Int) ≤ p.2.1 := pymin_le _ _ h0y _ (List.mem_map_of_mem _ hp)
    have h0z' : (0 : Int) ≤ p.2.2 := pymin_le _ _ h0z _ (List.mem_map_of_mem _ hp)
    have hMx' : Mx ≤ max (max Mx My) Mz := le_trans (le_max_left Mx My) (le_max_left _ Mz)
    have hMy' : My ≤ max (max Mx My) Mz := le_trans (le_max_right Mx My) (le_max_left _ Mz)
    have hMz' : Mz ≤ max (max Mx My) Mz := le_max_right _ Mz
    exact ⟨h0x', by omega, h0y', by omega, h0z', by omega⟩
  · intro hb
    obtain ⟨px, hpx, hpx'⟩ := List.mem_map.mp (pymax_mem _ _ hMx)
    obtain ⟨py, hpy, hpy'⟩ := List.mem_map.mp (pymax_mem _ _ hMy)
    obtain ⟨pz, hpz, hpz'⟩ := List.mem_map.mp (pymax_mem _ _ hMz)
    have h1 : Mx < w := by
      rw [← hpx']
      exact (hb px hpx).2.1
    have h2 : My < w := by
      rw [← hpy']
      exact (hb py hpy).2.2.2.1
    have h3 : Mz < w := by
      rw [← hpz']
      exact (hb pz hpz).2.2.2.2.2
    exact max_lt (max_lt h1 h2) h3

theorem mins_of_shifted (pv : List Pos) (mx my mz : Int)
    (hmx : pymin (pv.map fun p => p.1) = some mx)
    (hmy : pymin (pv.map fun p => p.2.1) = some my)
    (hmz : pymin (pv.map fun p => p.2.2) = some mz) :
    pymin ((pv.map fun p => (p.1 - mx, p.2.1 - my, p.2.2 - mz)).map fun p => p.1) = some 0 ∧
    pymin ((pv.map fun p => (p.1 - mx, p.2.1 - my, p.2.2 - mz)).map fun p => p.2.1) = some 0 ∧
    pymin ((pv.map fun p => (p.1 - mx, p.2.1 - my, p.2.2 - mz)).map fun p => p.2.2) = some 0 := by
  refine ⟨?_, ?_, ?_⟩
  · have hcomp : ((pv.map fun p => ((p.1 - mx, p.2.1 - my, p.2.2 - mz) : Pos)).map fun p => p.1) =
        (pv.map fun p => p.1).map fun a => a - mx := by
      simp [List.map_map]
    rw [hcomp, pymin_map_sub, hmx]
    simp
  · have hcomp : ((pv.map fun p => ((p.1 - mx, p.2.1 - my, p.2.2 - mz) : Pos)).map fun p => p.2.1) =
        (pv.map fun p => p.2.1).map fun a => a - my := by
      simp [List.map_map]
    rw [hcomp, pymin_map_sub, hmy]
    simp
  · have hcomp : ((pv.map fun p => ((p.1 - mx, p.2.1 - my, p.2.2 - mz) : Pos)).map fun p => p.2.2) =
        (pv.map fun p => p.2.2).map fun a => a - mz := by
      simp [List.map_map]
    rw [hcomp, pymin_map_sub, hmz]
    simp

theorem pymax_of_ne_nil (l : List Int) (h : l ≠ []) : ∃ v, pymax l = some v := by
  match l with
  | [] => exact absurd rfl h
  | x :: xs => exact ⟨_, rfl⟩

/-- Characterization of `is_valid_state`: it returns `some true` exactly
when the shifted visited positions are strictly inside the `[0, N)` cube
on all three axes, pairwise distinct, and the unvisited goal cells pass
`is_connected`. -/

theorem is_valid_state_characterization (sp : SnakePuzzleSearchSpace)
    (state : List Direction) :
    sp.is_valid_state state = some true ↔
      ∃ shifted, shift_into_positive_space (positions_visited state) = some shifted ∧
        (∀ p ∈ shifted, 0 ≤ p.1 ∧ p.1 < (sp.cube_width : Int) ∧ 0 ≤ p.2.1 ∧
          p.2.1 < (sp.cube_width : Int) ∧ 0 ≤ p.2.2 ∧ p.2.2 < (sp.cube_width : Int)) ∧
        shifted.Nodup ∧
        is_connected (sp.goal_list.dedup.filter fun q => decide (q ∉ shifted.toFinset)) =
          true := by
  obtain ⟨mx, my, mz, hmx, hmy, hmz, hshift⟩ :=
    shift_shape (positions_visited state) (positions_visited_ne_nil state)
  obtain ⟨h0x, h0y, h0z⟩ := mins_of_shifted (positions_visited state) mx my mz hmx hmy hmz
  set shifted :=
    ((positions_visited state).map fun p =>
      ((p.1 - mx, p.2.1 - my, p.2.2 - mz) : Pos)) with hshdef
  have hsne : shifted ≠ [] := by
    rw [hshdef]
    simp [positions_visited_ne_nil state]
  obtain ⟨Mx, hMx⟩ := pymax_of_ne_nil (shifted.map fun p => p.1) (by simp [hsne])
  obtain ⟨My, hMy⟩ := pymax_of_ne_nil (shifted.map fun p => p.2.1) (by simp [hsne])
  obtain ⟨Mz, hMz⟩ := pymax_of_ne_nil (shifted.map fun p => p.2.2) (by simp [hsne])
  have hval : sp.is_valid_state state = some (
      (decide (max (max Mx My) Mz < (sp.cube_width : Int)) &&
        decide (shifted.toFinset.card = shifted.length)) &&
      is_connected (sp.goal_list.dedup.filter fun q => decide (q ∉ shifted.toFinset))) := by
    rw [SnakePuzzleSearchSpace.is_valid_state, hshift]
    simp only [Option.bind_eq_bind, Option.some_bind]
    rw [hMx]
    simp only [Option.some_bind]
    rw [hMy]
    simp only [Option.some_bind]
    rw [hMz]
    simp only [Option.some_bind]
    rfl
  rw [hval]
  simp only [Option.some.injEq]
  constructor
  · intro h
    rw [Bool.and_eq_true, Bool.and_eq_true] at h
    obtain ⟨⟨h1, h2⟩, h3⟩ := h
    refine ⟨shifted, hshift, ?_, ?_, h3⟩
    · exact (max3_lt_iff shifted _ Mx My Mz hMx hMy hMz h0x h0y h0z).mp
        (by simpa using h1)
    · exact (nodup_iff_toFinset_card shifted).mp (by simpa using h2)
  · rintro ⟨shifted', hshift', hb, hnd, hconn⟩
    have heq : shifted' = shifted := by
      rw [hshift] at hshift'
      exact (Option.some_inj.mp hshift').symm
    subst heq
    rw [Bool.and_eq_true, Bool.and_eq_true]
    refine ⟨⟨?_, ?_⟩, hconn⟩
    · simpa using (max3_lt_iff shifted _ Mx My Mz hMx hMy hMz h0x h0y h0z).mpr hb
    · simpa using (nodup_iff_toFinset_card shifted).mpr hnd

theorem is_valid_state_isSome (sp : SnakePuzzleSearchSpace) (state : List Direction) :
    ∃ b, sp.is_valid_state state = some b := by
  obtain ⟨mx, my, mz, hmx, hmy, hmz, hshift⟩ :=
    shift_shape (positions_visited state) (positions_visited_ne_nil state)
  set shifted :=
    ((positions_visited state).map fun p =>
      ((p.1 - mx, p.2.1 - my, p.2.2 - mz) : Pos)) with hshdef
  have hsne : shifted ≠ [] := by
    rw [hshdef]
    simp [positions_visited_ne_nil state]
  obtain ⟨Mx, hMx⟩ := pymax_of_ne_nil (shifted.map fun p => p.1) (by simp [hsne])
  obtain ⟨My, hMy⟩ := pymax_of_ne_nil (shifted.map fun p => p.2.1) (by simp [hsne])
  obtain ⟨Mz, hMz⟩ := pymax_of_ne_nil (shifted.map fun p => p.2.2) (by simp [hsne])
  refine ⟨(decide (max (max Mx My) Mz < (sp.cube_width : Int)) &&
      decide (shifted.toFinset.card = shifted.length)) &&
      is_connected (sp.goal_list.dedup.filter fun q => decide (q ∉ shifted.toFinset)), ?_⟩
  rw [SnakePuzzleSearchSpace.is_valid_state, hshift]
  simp only [Option.bind_eq_bind, Option.some_bind]
  rw [hMx]
  simp only [Option.some_bind]
  rw [hMy]
  simp only [Option.some_bind]
  rw [hMz]
  simp only [Option.some_bind]
  rfl

theorem is_goal_state_characterization (sp : SnakePuzzleSearchSpace)
    (state : List Direction) :
    sp.is_goal_state state = some true ↔
      ∃ shifted, shift_into_positive_space (positions_visited state) = some shifted ∧
        shifted.toFinset = sp.goal_positions := by
  obtain ⟨mx, my, mz, hmx, hmy, hmz, hshift⟩ :=
    shift_shape (positions_visited state) (positions_visited_ne_nil state)
  have hval : sp.is_goal_state state = some (decide
      ((((positions_visited state).map fun p =>
        ((p.1 - mx, p.2.1 - my, p.2.2 - mz) : Pos))).toFinset = sp.goal_positions)) := by
    rw [SnakePuzzleSearchSpace.is_goal_state, hshift]
    simp only [Option.bind_eq_bind, Option.some_bind]
    rfl
  rw [hval]
  simp only [Option.some.injEq, decide_eq_true_eq]
  constructor
  · intro h
    exact ⟨_, hshift, h⟩
  · rintro ⟨s', hs', h⟩
    rw [hshift] at hs'
    rw [Option.some_inj.mp hs']
    exact h

theorem is_goal_state_isSome (sp : SnakePuzzleSearchSpace) (state : List Direction) :
    ∃ b, sp.is_goal_state state = some b := by
  obtain ⟨mx, my, mz, hmx, hmy, hmz, hshift⟩ :=
    shift_shape (positions_visited state) (positions_visited_ne_nil state)
  refine ⟨decide ((((positions_visited state).map fun p =>
      ((p.1 - mx, p.2.1 - my, p.2.2 - mz) : Pos))).toFinset = sp.goal_positions), ?_⟩
  rw [SnakePuzzleSearchSpace.is_goal_state, hshift]
  simp only [Option.bind_eq_bind, Option.some_bind]
  rfl

theorem filterValid_eq (sp : SnakePuzzleSearchSpace) (cs : List (List Direction)) :
    SnakePuzzleSearchSpace.filterValid sp cs =
      some (cs.filter fun c => decide (sp.is_valid_state c = some true)) := by
  induction cs with
  | nil => rfl
  | cons c cs ih =>
    obtain ⟨b, hb⟩ := is_valid_state_isSome sp c
    rw [SnakePuzzleSearchSpace.filterValid, hb]
    simp only [Option.bind_eq_bind, Option.some_bind, ih]
    rw [List.filter_cons]
    cases b
    · simp [hb]
    · simp [hb]

theorem get_successors_of_ge (sp : SnakePuzzleSearchSpace) (state : List Direction)
    (hlen : sp.multipliers.sum ≤ state.length) :
    sp.get_successors state = some [] := by
  rw [SnakePuzzleSearchSpace.get_successors, if_pos hlen]

theorem get_successors_of_lt (sp : SnakePuzzleSearchSpace) (state : List Direction)
    (h : state ≠ []) (hlen : state.length < sp.multipliers.sum) :
    sp.get_successors state =
      some (((SnakePuzzleSearchSpace.nextDirections (state.getLast h)
          (sp.at_pivot state)).map fun d => state ++ [d]).filter
        fun c => decide (sp.is_valid_state c = some true)) := by
  rw [SnakePuzzleSearchSpace.get_successors, if_neg (by omega),
    List.getLast?_eq_getLast state h]
  exact filterValid_eq sp _

theorem get_successors_isSome (sp : SnakePuzzleSearchSpace) (state : List Direction)
    (h : state ≠ []) : ∃ l, sp.get_successors state = some l := by
  by_cases hlen : sp.multipliers.sum ≤ state.length
  · exact ⟨[], get_successors_of_ge sp state hlen⟩
  · exact ⟨_, get_successors_of_lt sp state h (by omega)⟩

theorem nextDirections_straight (last : Direction) :
    SnakePuzzleSearchSpace.nextDirections last false = [last] := rfl

theorem nextDirections_pivot_length (last : Direction) :
    (SnakePuzzleSearchSpace.nextDirections last true).length = 4 := by
  cases last <;> rfl

theorem nextDirections_pivot_mem (last d : Direction) :
    d ∈ SnakePuzzleSearchSpace.nextDirections last true ↔ d.axis ≠ last.axis := by
  cases last <;> cases d <;> decide

/-- C1: for every state, `is_valid_state` returns true if and only if
every shifted visited position lies strictly within the `[0, N)` cube on
all three axes, the shifted visited positions are pairwise distinct, and
the set of goal positions not yet visited is connected as tested by
`is_connected`. -/
theorem is_valid_state_spec (sp : SnakePuzzleSearchSpace) (state : List Direction) :
    sp.is_valid_state state = some true ↔
      ∃ shifted, shift_into_positive_space (positions_visited state) = some shifted ∧
        (∀ p ∈ shifted, 0 ≤ p.1 ∧ p.1 < (sp.cube_width : Int) ∧ 0 ≤ p.2.1 ∧
          p.2.1 < (sp.cube_width : Int) ∧ 0 ≤ p.2.2 ∧ p.2.2 < (sp.cube_width : Int)) ∧
        shifted.Nodup ∧
        is_connected (sp.goal_list.dedup.filter fun q => decide (q ∉ shifted.toFinset)) =
          true :=
  is_valid_state_characterization sp state

/-- C4: for every state, `is_goal_state` returns true if and only if the
set of shifted visited positions equals the goal set exactly. -/
theorem is_goal_state_spec (sp : SnakePuzzleSearchSpace) (state : List Direction) :
    sp.is_goal_state state = some true ↔
      ∃ shifted, shift_into_positive_space (positions_visited state) = some shifted ∧
        shifted.toFinset = sp.goal_positions :=
  is_goal_state_characterization sp state

/-- C6: on a non-empty list, `shift_into_positive_space` is a pure
translation (it subtracts one fixed offset vector from every position,
preserving all pairwise relative offsets), returns a list of the same
length, and the minimum coordinate of the result on each axis is 0. -/
theorem shift_into_positive_space_spec (l : List Pos) (h : l ≠ []) :
    ∃ v : Pos, shift_into_positive_space l =
        some (l.map fun p => (p.1 - v.1, p.2.1 - v.2.1, p.2.2 - v.2.2)) ∧
      ∀ shifted, shift_into_positive_space l = some shifted →
        shifted.length = l.length ∧
        pymin (shifted.map fun p => p.1) = some 0 ∧
        pymin (shifted.map fun p => p.2.1) = some 0 ∧
        pymin (shifted.map fun p => p.2.2) = some 0 := by
  obtain ⟨mx, my, mz, hmx, hmy, hmz, hshift⟩ := shift_shape l h
  obtain ⟨h0x, h0y, h0z⟩ := mins_of_shifted l mx my mz hmx hmy hmz
  refine ⟨(mx, my, mz), hshift, ?_⟩
  intro shifted hs
  rw [hshift] at hs
  have heq := Option.some_inj.mp hs
  rw [← heq]
  exact ⟨by simp, h0x, h0y, h0z⟩

/-- Witness for C6 at a concrete two-element list. -/
theorem shift_into_positive_space_spec_witness :
    ([((3:Int), (-2:Int), (5:Int)), ((1:Int), (4:Int), (-6:Int))] : List Pos) ≠ [] ∧
    ∃ v : Pos,
      shift_into_positive_space [((3:Int), (-2:Int), (5:Int)), ((1:Int), (4:Int), (-6:Int))] =
        some (([((3:Int), (-2:Int), (5:Int)), ((1:Int), (4:Int), (-6:Int))] : List Pos).map
          fun p => (p.1 - v.1, p.2.1 - v.2.1, p.2.2 - v.2.2)) ∧
      ∀ shifted, shift_into_positive_space
          [((3:Int), (-2:Int), (5:Int)), ((1:Int), (4:Int), (-6:Int))] = some shifted →
        shifted.length =
          ([((3:Int), (-2:Int), (5:Int)), ((1:Int), (4:Int), (-6:Int))] : List Pos).length ∧
        pymin (shifted.map fun p => p.1) = some 0 ∧
        pymin (shifted.map fun p => p.2.1) = some 0 ∧
        pymin (shifted.map fun p => p.2.2) = some 0 :=
  ⟨by decide, shift_into_positive_space_spec _ (by decide)⟩

/-- C7: for every position and every valid direction, moving and then
moving in the inverse direction returns to the start; for every
character outside the six valid symbols, `move` raises a domain error
(modelled by `none`). -/
theorem move_inverse_spec (p : Pos) :
    (∀ d : Direction,
      (do
        let q ← move p d.char
        move q d.inverse.char) = some p) ∧
    (∀ c : Char, c ∉ (['N', 'S', 'E', 'W', 'U', 'D'] : List Char) → move p c = none) := by
  constructor
  · intro d
    rw [move_char]
    simp only [Option.bind_eq_bind, Option.some_bind]
    rw [move_char]
    obtain ⟨x, y, z⟩ := p
    cases d <;> simp [moveD, Direction.inverse, Prod.ext_iff]
  · intro c hc
    simp only [List.mem_cons, List.not_mem_nil, or_false, not_or] at hc
    obtain ⟨hN, hS, hE, hW, hU, hD⟩ := hc
    obtain ⟨x, y, z⟩ := p
    simp [move, hN, hS, hE, hW, hU, hD]

/-- Witness for C7 at a concrete position, direction and invalid symbol. -/
theorem move_inverse_spec_witness :
    (do
      let q ← move ((2:Int), (-3:Int), (7:Int)) Direction.U.char
      move q Direction.U.inverse.char) = some ((2:Int), (-3:Int), (7:Int)) ∧
    move ((2:Int), (-3:Int), (7:Int)) 'Q' = none :=
  ⟨(move_inverse_spec _).1 Direction.U, (move_inverse_spec _).2 'Q' (by decide)⟩

/-- C8 counterexample: on the empty list `shift_into_positive_space`
does not return the empty list — the Python `min([])` raises a
`ValueError`, modelled by `none`. -/
theorem shift_empty_counterexample :
    shift_into_positive_space ([] : List Pos) ≠ some [] := by decide

/-- C8 (amended): on the empty list `shift_into_positive_space` raises
an error (modelled by `none`) rather than returning the empty list. -/
theorem shift_empty_raises : shift_into_positive_space ([] : List Pos) = none := rfl

/-- C9: `is_goal_state` performs no self-intersection check: a state
whose shifted visited positions contain a duplicate is accepted as a
goal state when those positions, taken as a set, equal the goal set. -/
theorem is_goal_state_ignores_self_intersection :
    ∃ (sp : SnakePuzzleSearchSpace) (state : List Direction) (shifted : List Pos),
      shift_into_positive_space (positions_visited state) = some shifted ∧
      ¬ shifted.Nodup ∧ sp.is_goal_state state = some true := by
  refine ⟨⟨[7], 2⟩,
    [Direction.E, Direction.N, Direction.W, Direction.U,
     Direction.E, Direction.S, Direction.W, Direction.D],
    [((0:Int), (0:Int), (0:Int)), ((1:Int), 0, 0), ((1:Int), 1, 0), ((0:Int), 1, 0),
     ((0:Int), 1, 1), ((1:Int), 1, 1), ((1:Int), 0, 1), ((0:Int), 0, 1),
     ((0:Int), 0, 0)], ?_, ?_, ?_⟩
  · decide
  · decide
  · decide

/-- C10: each iteration of the `is_connected` loop strictly decreases
the combined measure of the open list length plus the cardinality of the
remaining-position set, so the traversal terminates on every input. -/
theorem is_connected_terminates (p : Pos) (rest : List Pos) (rem : Finset Pos) :
    (rest ++ (neighbors p).filter (fun q => decide (q ∈ rem))).length +
      (rem \ ((neighbors p).filter (fun q => decide (q ∈ rem))).toFinset).card <
      (p :: rest).length + rem.card :=
  bfs_step_measure_lt p rest rem

/-- C5 (amended): on duplicate-free inputs, `is_connected` decides
whether the cells form a single connected component under axis-aligned
adjacency; it returns true on the empty list and on singletons, and
false on two distinct non-adjacent positions. -/
theorem is_connected_spec :
    (∀ l : List Pos, l.Nodup → (is_connected l = true ↔ ConnectedIn l.toFinset)) ∧
    is_connected ([] : List Pos) = true ∧
    (∀ p : Pos, is_connected [p] = true) ∧
    (∀ p q : Pos, p ≠ q → q ∉ neighbors p → is_connected [p, q] = false) := by
  refine ⟨is_connected_iff_connectedIn, rfl, ?_, ?_⟩
  · intro p
    rw [is_connected_iff_connectedIn [p] (by simp)]
    intro a ha b hb
    simp only [List.toFinset_cons, List.toFinset_nil, insert_emptyc_eq,
      Finset.mem_singleton] at ha hb
    subst ha
    subst hb
    exact Relation.ReflTransGen.refl
  · intro p q hpq hadj
    have hnodup : ([p, q] : List Pos).Nodup := by simp [hpq]
    by_contra hfalse
    have htrue : is_connected [p, q] = true := by
      cases hic : is_connected [p, q]
      · exact absurd hic hfalse
      · rfl
    have hconn := (is_connected_iff_connectedIn [p, q] hnodup).mp htrue
    have hpm : p ∈ ([p, q] : List Pos).toFinset := by simp
    have hqm : q ∈ ([p, q] : List Pos).toFinset := by simp
    have key : ∀ x, Reach ([p, q] : List Pos).toFinset p x → x = p := by
      intro x hx
      induction hx with
      | refl => rfl
      | @tail b c hab step ih =>
        rcases step with ⟨hcS, hcn⟩
        rw [ih] at hcn
        simp only [List.toFinset_cons, List.toFinset_nil, insert_emptyc_eq,
          Finset.mem_insert, Finset.mem_singleton] at hcS
        rcases hcS with h | h
        · exact h
        · rw [h] at hcn
          exact absurd hcn hadj
    exact hpq (key q (hconn p hpm q hqm)).symm

/-- Witness for C5 at concrete adjacent and non-adjacent pairs. -/
theorem is_connected_spec_witness :
    ([((0:Int), (0:Int), (0:Int)), ((1:Int), (0:Int), (0:Int))] : List Pos).Nodup ∧
    (is_connected [((0:Int), (0:Int), (0:Int)), ((1:Int), (0:Int), (0:Int))] = true ↔
      ConnectedIn
        ([((0:Int), (0:Int), (0:Int)), ((1:Int), (0:Int), (0:Int))] : List Pos).toFinset) ∧
    is_connected [((0:Int), (0:Int), (0:Int)), ((5:Int), (5:Int), (5:Int))] = false :=
  ⟨by decide, is_connected_spec.1 _ (by decide),
    is_connected_spec.2.2.2 _ _ (by decide) (by decide)⟩

/-- C5 counterexample: the claim fails on lists with duplicates — a list
repeating one position is a single connected cell as a set, yet
`is_connected` returns false on it, because the duplicated head is also
placed in the remaining set and the traversal never removes it. -/
theorem is_connected_duplicate_counterexample :
    is_connected [((0:Int), (0:Int), (0:Int)), ((0:Int), (0:Int), (0:Int))] = false ∧
    ConnectedIn
      ([((0:Int), (0:Int), (0:Int)), ((0:Int), (0:Int), (0:Int))] : List Pos).toFinset := by
  constructor
  · rw [is_connected_eq_fuel]
    decide
  · intro a ha b hb
    simp only [List.toFinset_cons, List.toFinset_nil, insert_emptyc_eq,
      Finset.mem_insert, Finset.mem_singleton, or_self] at ha hb
    subst ha
    subst hb
    exact Relation.ReflTransGen.refl

/-- C2 (amended): for every non-empty state, if the trajectory length is
at least the total of the multipliers then `get_successors` returns the
empty list; for lengths below the total, the returned list is exactly
the candidate extensions that pass `is_valid_state`, in the fixed
enumeration order, where the only candidate direction at a non-pivot
length is the direction of the last move and the candidate directions at
a pivot length are exactly the four directions off the axis of the last
move; the result has at most four elements, and at most one at a
non-pivot length. -/
theorem get_successors_spec (sp : SnakePuzzleSearchSpace) (state : List Direction)
    (h : state ≠ []) :
    (sp.multipliers.sum ≤ state.length → sp.get_successors state = some []) ∧
    (state.length < sp.multipliers.sum →
      sp.get_successors state =
        some (((SnakePuzzleSearchSpace.nextDirections (state.getLast h)
            (sp.at_pivot state)).map fun d => state ++ [d]).filter
          fun c => decide (sp.is_valid_state c = some true))) ∧
    (sp.at_pivot state = true →
      (SnakePuzzleSearchSpace.nextDirections (state.getLast h) true).length = 4 ∧
      ∀ d : Direction,
        d ∈ SnakePuzzleSearchSpace.nextDirections (state.getLast h) true ↔
          d.axis ≠ (state.getLast h).axis) ∧
    (sp.at_pivot state = false →
      SnakePuzzleSearchSpace.nextDirections (state.getLast h) false = [state.getLast h]) ∧
    (∀ succ, sp.get_successors state = some succ →
      succ.length ≤ 4 ∧ (sp.at_pivot state = false → succ.length ≤ 1)) := by
  refine ⟨get_successors_of_ge sp state, get_successors_of_lt sp state h, ?_, ?_, ?_⟩
  · intro _
    exact ⟨nextDirections_pivot_length _, fun d => nextDirections_pivot_mem _ d⟩
  · intro _
    exact nextDirections_straight _
  · intro succ hsucc
    by_cases hlen : sp.multipliers.sum ≤ state.length
    · rw [get_successors_of_ge sp state hlen] at hsucc
      have hnil : succ = [] := (Option.some_inj.mp hsucc).symm
      subst hnil
      exact ⟨by simp, fun _ => by simp⟩
    · rw [get_successors_of_lt sp state h (by omega)] at hsucc
      have heq := Option.some_inj.mp hsucc
      constructor
      · rw [← heq]
        have hnd : (SnakePuzzleSearchSpace.nextDirections (state.getLast h)
            (sp.at_pivot state)).length ≤ 4 := by
          cases hap : sp.at_pivot state
          · rw [nextDirections_straight]
            simp
          · rw [nextDirections_pivot_length]
        exact le_trans (List.length_filter_le _ _) (by simpa using hnd)
      · intro hap
        rw [← heq, hap, nextDirections_straight]
        exact le_trans (List.length_filter_le _ _) (by simp)

/-- Witness for C2 at the instance with multipliers `(7,)`, cube width 2
and the start state. -/
theorem get_successors_spec_witness :
    (((⟨[7], 2⟩ : SnakePuzzleSearchSpace).multipliers.sum ≤
        ([Direction.E] : List Direction).length →
      (⟨[7], 2⟩ : SnakePuzzleSearchSpace).get_successors [Direction.E] = some []) ∧
    (([Direction.E] : List Direction).length <
        (⟨[7], 2⟩ : SnakePuzzleSearchSpace).multipliers.sum →
      (⟨[7], 2⟩ : SnakePuzzleSearchSpace).get_successors [Direction.E] =
        some (((SnakePuzzleSearchSpace.nextDirections Direction.E
            ((⟨[7], 2⟩ : SnakePuzzleSearchSpace).at_pivot [Direction.E])).map
              fun d => [Direction.E] ++ [d]).filter
          fun c => decide ((⟨[7], 2⟩ : SnakePuzzleSearchSpace).is_valid_state c =
            some true))) ∧
    ((⟨[7], 2⟩ : SnakePuzzleSearchSpace).at_pivot [Direction.E] = true →
      (SnakePuzzleSearchSpace.nextDirections Direction.E true).length = 4 ∧
      ∀ d : Direction,
        d ∈ SnakePuzzleSearchSpace.nextDirections Direction.E true ↔
          d.axis ≠ Direction.E.axis) ∧
    ((⟨[7], 2⟩ : SnakePuzzleSearchSpace).at_pivot [Direction.E] = false →
      SnakePuzzleSearchSpace.nextDirections Direction.E false = [Direction.E]) ∧
    (∀ succ, (⟨[7], 2⟩ : SnakePuzzleSearchSpace).get_successors [Direction.E] = some succ →
      succ.length ≤ 4 ∧
        ((⟨[7], 2⟩ : SnakePuzzleSearchSpace).at_pivot [Direction.E] = false →
          succ.length ≤ 1))) :=
  get_successors_spec ⟨[7], 2⟩ [Direction.E] (by decide)

/-- C2 counterexample: with multipliers `(1,)` and cube width 3 the
state `E,N` has length 2, different from the multiplier total 1 and not
a pivot, and its straight-ahead candidate `E,N,N` passes
`is_valid_state`; the claim as stated therefore demands the singleton
successor list, but the source's `>=` length guard returns the empty
list for every length at or beyond the total, not only at the total. -/
theorem get_successors_beyond_full_length_counterexample :
    ([Direction.E, Direction.N] : List Direction).length ≠
      (⟨[1], 3⟩ : SnakePuzzleSearchSpace).multipliers.sum ∧
    (⟨[1], 3⟩ : SnakePuzzleSearchSpace).at_pivot [Direction.E, Direction.N] = false ∧
    (⟨[1], 3⟩ : SnakePuzzleSearchSpace).is_valid_state
      [Direction.E, Direction.N, Direction.N] = some true ∧
    (((SnakePuzzleSearchSpace.nextDirections Direction.N false).map
        fun d => [Direction.E, Direction.N] ++ [d]).filter
      fun c => decide ((⟨[1], 3⟩ : SnakePuzzleSearchSpace).is_valid_state c = some true)) =
      [[Direction.E, Direction.N, Direction.N]] ∧
    (⟨[1], 3⟩ : SnakePuzzleSearchSpace).get_successors [Direction.E, Direction.N] =
      some [] := by
  have hvalid : (⟨[1], 3⟩ : SnakePuzzleSearchSpace).is_valid_state
      [Direction.E, Direction.N, Direction.N] = some true := by
    refine (is_valid_state_characterization _ _).mpr
      ⟨[((0:Int), (0:Int), (0:Int)), ((1:Int), 0, 0), ((1:Int), 1, 0), ((1:Int), 2, 0)],
        ?_, ?_, ?_, ?_⟩
    · decide
    · decide
    · decide
    · rw [is_connected_eq_fuel]
      decide
  refine ⟨by decide, by decide, hvalid, ?_, get_successors_of_ge _ _ (by decide)⟩
  simp [SnakePuzzleSearchSpace.nextDirections, List.filter, hvalid]

/-- C3 counterexample: constructing an instance whose multiplier sum (1)
differs from `cube_width ** 3` (8) does not fail: `__init__` performs no
validation, and the resulting instance is a normal, usable state space. -/
theorem construction_accepts_sum_mismatch_counterexample :
    (⟨[1], 2⟩ : SnakePuzzleSearchSpace).multipliers.sum ≠ 2 ^ 3 ∧
    (⟨[1], 2⟩ : SnakePuzzleSearchSpace).get_start_state = [Direction.E] ∧
    (⟨[1], 2⟩ : SnakePuzzleSearchSpace).get_successors [Direction.E] = some [] ∧
    (⟨[1], 2⟩ : SnakePuzzleSearchSpace).is_goal_state [Direction.E] = some false := by
  refine ⟨by decide, rfl, get_successors_of_ge _ _ (by decide), ?_⟩
  decide

/-- C3 (amended): construction never fails — `__init__` performs no sum
validation, so for every multiplier sequence and cube width whose sum
differs from `cube_width ** 3` the constructor still returns a usable
state space: the start state is defined and the goal test and successor
generation return values rather than raising. -/
theorem construction_never_fails (m : List Nat) (w : Nat) (hm : m.sum ≠ w ^ 3) :
    (⟨m, w⟩ : SnakePuzzleSearchSpace).get_start_state = [Direction.E] ∧
    (∃ b, (⟨m, w⟩ : SnakePuzzleSearchSpace).is_goal_state
      ((⟨m, w⟩ : SnakePuzzleSearchSpace).get_start_state) = some b) ∧
    (∃ l, (⟨m, w⟩ : SnakePuzzleSearchSpace).get_successors
      ((⟨m, w⟩ : SnakePuzzleSearchSpace).get_start_state) = some l) :=
  ⟨rfl, is_goal_state_isSome _ _,
    get_successors_isSome _ _ (List.cons_ne_nil _ _)⟩

/-- Witness for C3 at multipliers `(1,)` and cube width 2. -/
theorem construction_never_fails_witness :
    List.sum [1] ≠ 2 ^ 3 ∧
    ((⟨[1], 2⟩ : SnakePuzzleSearchSpace).get_start_state = [Direction.E] ∧
    (∃ b, (⟨[1], 2⟩ : SnakePuzzleSearchSpace).is_goal_state
      ((⟨[1], 2⟩ : SnakePuzzleSearchSpace).get_start_state) = some b) ∧
    (∃ l, (⟨[1], 2⟩ : SnakePuzzleSearchSpace).get_successors
      ((⟨[1], 2⟩ : SnakePuzzleSearchSpace).get_start_state) = some l)) :=
  ⟨by decide, construction_never_fails [1] 2 (by decide)⟩
